import Mathlib

/-!
Verification development for the AI-Document-Extractor repository.

We shallowly embed the core batch-extraction pipeline of the application
(the feature-complete variant of App.tsx: the bounded-concurrency worker
pool of handleExtract, the retry pass of handleRetryFailed, the
ProgressTracker / formatEta logic) together with the CSV escaping helper,
and prove the behavioural properties the specification states about them.

JavaScript values appearing in table cells are modelled by the inductive
type Value (null / number / string); JS objects used as header-to-value
records are modelled as association lists read through List.lookup, so
that a later assignment of the same key shadows the earlier one exactly
as property assignment does in JS.
-/

set_option maxHeartbeats 1000000

namespace DocExtractor

/-- A JS value stored in a table cell: null, a number, or a string. -/
inductive Value where
  | vNull : Value
  | vNum : Nat → Value
  | vStr : String → Value
deriving DecidableEq, Repr

/-- A JS object mapping header names to values (association list; lookup
returns the most recent binding, matching JS property assignment). -/
def Rec := List (String × Value)
deriving instance DecidableEq for Rec

/-- A finalized output row: the same representation, built in header order. -/
def Row := List (String × Value)
deriving instance DecidableEq for Row

/-- JS property assignment `r[k] = v`: prepends the binding so that
List.lookup sees the new value (overwrite semantics). -/
def setField (r : Rec) (k : String) (v : Value) : Rec := (k, v) :: r

/-- An uploaded file as the pipeline sees it (only the name is observable
in the row-building code). -/
structure JSFile where
  name : String
deriving DecidableEq, Repr

/-- A queued work item: `files.map((file, index) => ({ file, index }))`. -/
structure WorkItem where
  file : JSFile
  index : Nat
deriving DecidableEq, Repr

/-- The JS expression `r[h] ?? 'N/A'`: null and absent both coalesce. -/
def coalesceNA (r : Rec) (h : String) : Value :=
  match List.lookup h r with
  | some Value.vNull => Value.vStr "N/A"
  | some v => v
  | none => Value.vStr "N/A"

/-! ### CSV export helper (escapeCsvCell)

JS strings handled by the escaper are modelled as lists of characters so
that containment and global replacement are plain structural recursion. -/

/-- The argument passed to escapeCsvCell: null, undefined, or any other
value represented by its string form (the result of JS String(x)). -/
inductive CellData where
  | cNull : CellData
  | cUndefined : CellData
  | cStr : List Char → CellData
deriving DecidableEq

/-- Line 2 of the exporter: `cellData === null || cellData === undefined
? '' : String(cellData)`. -/
def cellString : CellData → List Char
  | CellData.cNull => []
  | CellData.cUndefined => []
  | CellData.cStr s => s

/-- The JS global regex replacement on line 4 of the exporter: double
every double-quote character of the string. -/
def doubleQuotes : List Char → List Char
  | [] => []
  | c :: t => if c = '"' then '"' :: '"' :: doubleQuotes t else c :: doubleQuotes t

/-- escapeCsvCell from the CSV export module. -/
def escapeCsvCell (cellData : CellData) : List Char :=
  let stringValue := cellString cellData
  if stringValue.contains ',' || stringValue.contains '"' || stringValue.contains '\n' then
    '"' :: doubleQuotes stringValue ++ ['"']
  else
    stringValue

/-! ### formatEta -/

/-- JS Math.round: round half toward positive infinity. -/
def jsRound (q : ℚ) : ℤ := ⌊q + 1/2⌋

/-- formatEta from App.tsx: human-readable ETA string.  (The
`!isFinite(ms)` disjunct of the source guard is vacuous here because ℚ
has no non-finite elements.) -/
def formatEta (ms : ℚ) : String :=
  if ms < 1000 then "a few seconds"
  else
    let totalSeconds : ℤ := jsRound (ms / 1000)
    let minutes : ℤ := totalSeconds / 60
    let seconds : ℤ := totalSeconds % 60
    if minutes > 0 then
      "about " ++ toString minutes ++ " minute" ++ (if minutes > 1 then "s" else "")
        ++ (if seconds > 10 then " and " ++ toString seconds ++ " seconds" else "")
    else
      "about " ++ toString seconds ++ " second" ++ (if seconds > 1 then "s" else "")

/-- The amended specification of formatEta, written from the amended
claim: the minutes form is used exactly when the rounded total-seconds
value reaches 60 (not when the raw duration reaches 60 s). -/
def specFormatEta (ms : ℚ) : String :=
  if ms < 1000 then "a few seconds"
  else
    let t : ℤ := jsRound (ms / 1000)
    if t ≥ 60 then
      "about " ++ toString (t / 60) ++ " minute" ++ (if t / 60 > 1 then "s" else "")
        ++ (if t % 60 > 10 then " and " ++ toString (t % 60) ++ " seconds" else "")
    else
      "about " ++ toString t ++ " second" ++ (if t > 1 then "s" else "")

/-! ### ProgressTracker (the setProcessedFileCount updater) -/

/-- Progress-tracking state shared by the workers of one run:
processedFileCount, smoothedEtaRef.current, estimatedTimeRemaining. -/
structure ProgressState where
  count : Nat
  smoothedEta : Option ℚ
  etaDisplay : Option String
deriving DecidableEq

/-- The reset performed at the start of handleExtract and of
handleRetryFailed: setProcessedFileCount(0), smoothedEtaRef.current =
null, setEstimatedTimeRemaining(null). -/
def progressStart : ProgressState :=
  { count := 0, smoothedEta := none, etaDisplay := none }

/-- One completion event: the setProcessedFileCount updater body shared
verbatim by handleExtract (total = files.length) and handleRetryFailed
(total = failedItems.length).  startTime is the captured
extractionStartTime (none models null), now the value of Date.now(). -/
def onCompleted (total : Nat) (startTime : Option ℚ) (now : ℚ)
    (s : ProgressState) : ProgressState :=
  let newCount := s.count + 1
  match startTime with
  | none => { count := newCount, smoothedEta := s.smoothedEta, etaDisplay := s.etaDisplay }
  | some t0 =>
    let elapsed := now - t0
    if elapsed > 1000 ∧ newCount > 1 then
      let avgTimePerFile := elapsed / (newCount : ℚ)
      let remainingFiles := (total : ℚ) - (newCount : ℚ)
      let rawEtaMs := remainingFiles * avgTimePerFile
      let smoothingFactor : ℚ := 2/5
      let smoothed :=
        match s.smoothedEta with
        | none => rawEtaMs
        | some prev => smoothingFactor * rawEtaMs + (1 - smoothingFactor) * prev
      { count := newCount, smoothedEta := some smoothed,
        etaDisplay := some (formatEta smoothed) }
    else
      { count := newCount, smoothedEta := s.smoothedEta, etaDisplay := s.etaDisplay }

/-! ### Row shaping -/

/-- headersForAI: the content headers, everything except S.No and
Document Name. -/
def contentHeaders (headers : List String) : List String :=
  headers.filter fun h => h != "S.No" && h != "Document Name"

/-- fileQueue seeding: `files.map((file, index) => ({ file, index }))`. -/
def origItems (files : List JSFile) : List WorkItem :=
  files.enum.map fun p => { file := p.2, index := p.1 }

/-- The metadata-only short-circuit rows of handleExtract (taken when no
content header is selected). -/
def metaRows (headers : List String) (files : List JSFile) : List Row :=
  files.enum.map fun p =>
    (if "S.No" ∈ headers then [("S.No", Value.vNum (p.1 + 1))] else [])
      ++ (if "Document Name" ∈ headers then [("Document Name", Value.vStr p.2.name)] else [])

/-- The errorRow built in the worker's catch branch. -/
def errorRow (headers : List String) (file : JSFile) : Rec :=
  headers.filterMap fun h =>
    if h = "Document Name" then some (h, Value.vStr file.name)
    else if h = "S.No" then none
    else some (h, Value.vStr "--- EXTRACTION FAILED ---")

/-- The rowData a worker stores for one item: the parsed extraction
response decorated with Document Name on success, the errorRow on a
thrown extraction.  The oracle attempt gives the outcome of
extractInfoFromSingleFile + JSON.parse for the file at each original
index. -/
def attemptRow (headers : List String) (attempt : Nat → Except String Rec)
    (it : WorkItem) : Rec :=
  match attempt it.index with
  | Except.ok parsedResult =>
      if "Document Name" ∈ headers then
        setField parsedResult "Document Name" (Value.vStr it.file.name)
      else parsedResult
  | Except.error _ => errorRow headers it.file

/-- Whether the extraction attempt for index i throws. -/
def failsAt (attempt : Nat → Except String Rec) (i : Nat) : Bool :=
  match attempt i with
  | Except.ok _ => false
  | Except.error _ => true

/-- One row of handleExtract's finalData: every header in order, S.No
from the slot position, every other header from the stored record with
null/absent coalesced to N/A. -/
def buildFinalRow (headers : List String) (index : Nat) (row : Rec) : Row :=
  headers.map fun h =>
    if h = "S.No" then (h, Value.vNum (index + 1)) else (h, coalesceNA row h)

/-- handleExtract's finalData over the results slot array.  (A null slot
is read as the empty record; the theorems below show every slot of a
drained run is written, so this branch is never exercised.) -/
def finalData (headers : List String) (slots : List (Option Rec)) : List Row :=
  slots.enum.map fun p => buildFinalRow headers p.1 (p.2.getD [])

/-! ### Live snapshot (liveTableData) -/

/-- A live-snapshot row; a none value models a JS property holding
undefined (the snapshot copies row[h] without the N/A coalescing). -/
def LiveRow := List (String × Option Value)
deriving instance DecidableEq for LiveRow

/-- One live row: S.No is idx + 1 for the slot's array position idx, then
every non-S.No header copied from the stored record. -/
def mkLiveRow (headers : List String) (idx : Nat) (row : Rec) : LiveRow :=
  ("S.No", some (Value.vNum (idx + 1)))
    :: headers.filterMap fun h =>
      if h = "S.No" then none else some (h, List.lookup h row)

/-- liveTableData: map each slot to a row or null, then filter out the
nulls. -/
def liveTableData (headers : List String) (slots : List (Option Rec)) : List LiveRow :=
  (slots.enum.map fun p => p.2.map (mkLiveRow headers p.1)).filterMap id

/-- Observer: the written slots of the results array, as (original index,
record) pairs in index order.  Used to state what liveTableData emits. -/
def writtenSlots : List (Option Rec) → List (Nat × Rec)
  | [] => []
  | none :: t => (writtenSlots t).map fun p => (p.1 + 1, p.2)
  | some r :: t => (0, r) :: ((writtenSlots t).map fun p => (p.1 + 1, p.2))

/-! ### The bounded-concurrency worker pool of handleExtract

The pool is modelled as a small-step machine.  A worker is idle (inside
the while-loop head), busy on an item (between the synchronous
fileQueue.shift() and the synchronous write of results[index]), or done
(the while-loop exited on an empty queue).  JS's run-to-completion
scheduling makes the shift-and-claim and the write-and-record blocks
atomic; the machine keeps exactly those blocks as single steps and lets
workers interleave freely everywhere else.  The ghost field completed
records, in completion order, the items whose write block has run; it is
the trace underlying processedFileCount. -/

/-- CONCURRENCY_LIMIT from handleExtract / handleRetryFailed. -/
def CONCURRENCY_LIMIT : Nat := 5

/-- The position of one worker in its loop. -/
inductive WStatus where
  | idle : WStatus
  | busy : WorkItem → WStatus
  | done : WStatus
deriving DecidableEq

/-- The items currently claimed by busy workers. -/
def busyItems (ws : List WStatus) : List WorkItem :=
  ws.filterMap fun st =>
    match st with
    | WStatus.busy it => some it
    | _ => none

/-- The shared state of one handleExtract run. -/
structure RunState where
  fileQueue : List WorkItem
  workers : List WStatus
  results : List (Option Rec)
  completed : List WorkItem
  failedItems : List WorkItem
deriving DecidableEq

/-- The state right after handleExtract seeds the queue and the results
array and spawns CONCURRENCY_LIMIT workers. -/
def initState (files : List JSFile) : RunState :=
  { fileQueue := origItems files
    workers := List.replicate CONCURRENCY_LIMIT WStatus.idle
    results := List.replicate files.length none
    completed := []
    failedItems := [] }

/-- One atomic step of the handleExtract worker pool. -/
inductive Step (headers : List String) (attempt : Nat → Except String Rec) :
    RunState → RunState → Prop where
  | start (s : RunState) (w : Nat) (it : WorkItem) (rest : List WorkItem) :
      s.workers[w]? = some WStatus.idle →
      s.fileQueue = it :: rest →
      Step headers attempt s
        { s with fileQueue := rest, workers := s.workers.set w (WStatus.busy it) }
  | finish (s : RunState) (w : Nat) (it : WorkItem) :
      s.workers[w]? = some (WStatus.busy it) →
      Step headers attempt s
        { fileQueue := s.fileQueue
          workers := s.workers.set w WStatus.idle
          results := s.results.set it.index (some (attemptRow headers attempt it))
          completed := s.completed ++ [it]
          failedItems := s.failedItems ++
            (match attempt it.index with
             | Except.ok _ => []
             | Except.error _ => [it]) }
  | exit (s : RunState) (w : Nat) :
      s.workers[w]? = some WStatus.idle →
      s.fileQueue = [] →
      Step headers attempt s { s with workers := s.workers.set w WStatus.done }

/-- Reachability of a run state from the freshly seeded pool. -/
def RunReachable (files : List JSFile) (headers : List String)
    (attempt : Nat → Except String Rec) (s : RunState) : Prop :=
  Relation.ReflTransGen (Step headers attempt) (initState files) s

/-- Promise.all(workers) has resolved: the queue is drained and every
worker has exited its loop. -/
def FinalState (s : RunState) : Prop :=
  s.fileQueue = [] ∧ ∀ st ∈ s.workers, st = WStatus.done

instance (s : RunState) : Decidable (FinalState s) := by
  unfold FinalState
  infer_instance

/-- The caller-visible outcome of handleExtract: the returned rows, the
failed-items list, and the original indices for which an extraction call
was issued.  The metadata-only branch mirrors the short-circuit of lines
505-515; the pool branch runs the worker machine to a final state. -/
inductive RunResult (files : List JSFile) (headers : List String)
    (attempt : Nat → Except String Rec) :
    List Row → List WorkItem → List Nat → Prop where
  | metadataOnly :
      contentHeaders headers = [] →
      RunResult files headers attempt (metaRows headers files) [] []
  | pool (s : RunState) :
      contentHeaders headers ≠ [] →
      RunReachable files headers attempt s →
      FinalState s →
      RunResult files headers attempt (finalData headers s.results)
        s.failedItems (s.completed.map WorkItem.index)

/-! ### The retry pass of handleRetryFailed -/

/-- The successfulRow a retry worker writes for an item whose second
attempt parsed: S.No and Document Name recomputed from the item, every
other header from the response with null/absent coalesced to N/A. -/
def successRow (headers : List String) (it : WorkItem) (parsedResult : Rec) : Row :=
  headers.map fun h =>
    if h = "S.No" then (h, Value.vNum (it.index + 1))
    else if h = "Document Name" then (h, Value.vStr it.file.name)
    else (h, coalesceNA parsedResult h)

/-- The shared state of one handleRetryFailed pass: the results array now
holds finalized rows (a copy of extractedData) and only failed items are
queued. -/
structure RetryState where
  fileQueue : List WorkItem
  workers : List WStatus
  results : List Row
  completed : List WorkItem
  failedItems : List WorkItem
deriving DecidableEq

/-- The state right after handleRetryFailed seeds its queue with the
prior failedItems and copies the prior extractedData. -/
def retryInit (failedItems : List WorkItem) (extractedData : List Row) : RetryState :=
  { fileQueue := failedItems
    workers := List.replicate CONCURRENCY_LIMIT WStatus.idle
    results := extractedData
    completed := []
    failedItems := [] }

/-- The items currently claimed by busy retry workers. -/
def rBusyItems (ws : List WStatus) : List WorkItem := busyItems ws

/-- One atomic step of the handleRetryFailed worker pool.  A failing
second attempt leaves the existing error row in the results (the catch
branch only records the item in newFailedItems). -/
inductive RStep (headers : List String) (attempt : Nat → Except String Rec) :
    RetryState → RetryState → Prop where
  | start (s : RetryState) (w : Nat) (it : WorkItem) (rest : List WorkItem) :
      s.workers[w]? = some WStatus.idle →
      s.fileQueue = it :: rest →
      RStep headers attempt s
        { s with fileQueue := rest, workers := s.workers.set w (WStatus.busy it) }
  | finish (s : RetryState) (w : Nat) (it : WorkItem) :
      s.workers[w]? = some (WStatus.busy it) →
      RStep headers attempt s
        { fileQueue := s.fileQueue
          workers := s.workers.set w WStatus.idle
          results :=
            match attempt it.index with
            | Except.ok parsedResult => s.results.set it.index (successRow headers it parsedResult)
            | Except.error _ => s.results
          completed := s.completed ++ [it]
          failedItems := s.failedItems ++
            (match attempt it.index with
             | Except.ok _ => []
             | Except.error _ => [it]) }
  | exit (s : RetryState) (w : Nat) :
      s.workers[w]? = some WStatus.idle →
      s.fileQueue = [] →
      RStep headers attempt s { s with workers := s.workers.set w WStatus.done }

/-- Reachability of a retry state from the freshly seeded retry pool. -/
def RetryReachable (failedItems : List WorkItem) (extractedData : List Row)
    (headers : List String) (attempt : Nat → Except String Rec)
    (t : RetryState) : Prop :=
  Relation.ReflTransGen (RStep headers attempt) (retryInit failedItems extractedData) t

/-- The retry's Promise.all has resolved. -/
def RetryFinalState (t : RetryState) : Prop :=
  t.fileQueue = [] ∧ ∀ st ∈ t.workers, st = WStatus.done

instance (t : RetryState) : Decidable (RetryFinalState t) := by
  unfold RetryFinalState
  infer_instance

/-- Weight of one worker position for the termination measure of the
pool. -/
def wWeight : WStatus → Nat
  | WStatus.idle => 1
  | WStatus.busy _ => 2
  | WStatus.done => 0

/-- Termination measure of the run machine: every step strictly
decreases it, so every run drains. -/
def runMeasure (s : RunState) : Nat :=
  2 * s.fileQueue.length + (s.workers.map wWeight).sum

/-! ### Machine invariants -/

/-- Invariant of the handleExtract worker pool: the pool keeps five
worker slots, the results array keeps its length, every original item is
in exactly one of queue / claimed / completed, completed items have their
row written at their original index, failedItems is exactly the failing
prefix-trace of completed items, and a worker only exits once the queue
is empty. -/
structure RunInv (files : List JSFile) (headers : List String)
    (attempt : Nat → Except String Rec) (s : RunState) : Prop where
  wlen : s.workers.length = CONCURRENCY_LIMIT
  rlen : s.results.length = files.length
  perm : (s.fileQueue ++ busyItems s.workers ++ s.completed).Perm (origItems files)
  slots : ∀ it ∈ s.completed,
    s.results[it.index]? = some (some (attemptRow headers attempt it))
  failedEq : s.failedItems = s.completed.filter fun it => failsAt attempt it.index
  doneQ : s.fileQueue ≠ [] → WStatus.done ∉ s.workers

/-- Invariant of the handleRetryFailed pool, relative to the seeded
failedItems and the copied prior rows: every queued item is in exactly
one of queue / claimed / completed, indices no completed item touched
still hold their prior row, each completed item's slot reflects its
second attempt, and failedItems is the failing trace of completed
items. -/
structure RetryInv (fitems : List WorkItem) (prior : List Row)
    (headers : List String) (attempt : Nat → Except String Rec)
    (t : RetryState) : Prop where
  wlen : t.workers.length = CONCURRENCY_LIMIT
  rlen : t.results.length = prior.length
  perm : (t.fileQueue ++ busyItems t.workers ++ t.completed).Perm fitems
  frame : ∀ i, (∀ it ∈ t.completed, it.index ≠ i) → t.results[i]? = prior[i]?
  outcome : ∀ it ∈ t.completed,
    match attempt it.index with
    | Except.ok parsedResult => t.results[it.index]? = some (successRow headers it parsedResult)
    | Except.error _ => t.results[it.index]? = prior[it.index]?
  failedEq : t.failedItems = t.completed.filter fun it => failsAt attempt it.index

/-! ### Concrete demonstration run (used to witness the theorems) -/

/-- Demo file a.pdf. -/
def demoFileA : JSFile := { name := "a.pdf" }

/-- Demo file b.pdf. -/
def demoFileB : JSFile := { name := "b.pdf" }

/-- Demo work item for a.pdf (original index 0). -/
def demoItem0 : WorkItem := { file := demoFileA, index := 0 }

/-- Demo work item for b.pdf (original index 1). -/
def demoItem1 : WorkItem := { file := demoFileB, index := 1 }

/-- Demo batch of two files. -/
def demoFiles : List JSFile := [demoFileA, demoFileB]

/-- Demo schema: both metadata headers and one content header. -/
def demoHeaders : List String := ["S.No", "Document Name", "Amount"]

/-- Demo first-pass extraction oracle: the file at index 0 throws, the
file at index 1 parses. -/
def demoAttempt1 : Nat → Except String Rec := fun i =>
  if i = 0 then Except.error "network error"
  else Except.ok [("Amount", Value.vStr "42")]

/-- Demo retry-pass extraction oracle: every attempt now parses. -/
def demoAttempt2 : Nat → Except String Rec := fun _ =>
  Except.ok [("Amount", Value.vStr "7")]

/-- The final state of the demo run in which one worker processes both
items and every worker then exits. -/
def demoRunFinal : RunState :=
  { fileQueue := []
    workers := List.replicate CONCURRENCY_LIMIT WStatus.done
    results := [some (attemptRow demoHeaders demoAttempt1 demoItem0),
                some (attemptRow demoHeaders demoAttempt1 demoItem1)]
    completed := [demoItem0, demoItem1]
    failedItems := [demoItem0] }

/-- The rows the demo run returns. -/
def demoRunRows : List Row := finalData demoHeaders demoRunFinal.results

/-- The final state of the demo retry pass over the demo run's failed
item. -/
def demoRetryFinal : RetryState :=
  { fileQueue := []
    workers := List.replicate CONCURRENCY_LIMIT WStatus.done
    results := demoRunRows.set 0 (successRow demoHeaders demoItem0 [("Amount", Value.vStr "7")])
    completed := [demoItem0]
    failedItems := [] }

end DocExtractor

namespace DocExtractor

theorem origItems_map_index (files : List JSFile) :
    (origItems files).map WorkItem.index = List.range files.length := by
  unfold origItems
  rw [List.map_map]
  have h : (WorkItem.index ∘ fun p : ℕ × JSFile => ({ file := p.2, index := p.1 } : WorkItem))
      = Prod.fst := rfl
  rw [h, List.enum_map_fst]

theorem mem_origItems {files : List JSFile} {it : WorkItem} :
    it ∈ origItems files ↔ files[it.index]? = some it.file := by
  constructor
  · intro h
    unfold origItems at h
    rcases List.mem_map.mp h with ⟨p, hp, he⟩
    have hg := List.mem_enum_iff_getElem?.mp hp
    cases he
    exact hg
  · intro h
    unfold origItems
    exact List.mem_map.mpr ⟨(it.index, it.file), List.mem_enum_iff_getElem?.mpr h, rfl⟩

theorem busyItems_set_busy (ws : List WStatus) (w : Nat) (it : WorkItem)
    (h : ws[w]? = some WStatus.idle) :
    (busyItems (ws.set w (WStatus.busy it))).Perm (it :: busyItems ws) := by
  induction ws generalizing w with
  | nil => simp at h
  | cons hd tl ih =>
    cases w with
    | zero =>
      simp at h
      subst h
      simp [busyItems]
    | succ w =>
      simp at h
      have hp := ih w h
      cases hd with
      | busy jt =>
        simp only [busyItems, List.set_cons_succ, List.filterMap_cons] at hp ⊢
        exact (hp.cons jt).trans (List.Perm.swap it jt _)
      | idle =>
        simpa [busyItems] using hp
      | done =>
        simpa [busyItems] using hp

theorem busyItems_set_done (ws : List WStatus) (w : Nat)
    (h : ws[w]? = some WStatus.idle) :
    busyItems (ws.set w WStatus.done) = busyItems ws := by
  induction ws generalizing w with
  | nil => simp at h
  | cons hd tl ih =>
    cases w with
    | zero =>
      simp at h
      subst h
      simp [busyItems]
    | succ w =>
      simp at h
      have hp := ih w h
      unfold busyItems at hp
      cases hd <;> simp [busyItems, hp]

theorem busyItems_set_unbusy (ws : List WStatus) (w : Nat) (it : WorkItem)
    (h : ws[w]? = some (WStatus.busy it)) :
    (busyItems ws).Perm (it :: busyItems (ws.set w WStatus.idle)) := by
  induction ws generalizing w with
  | nil => simp at h
  | cons hd tl ih =>
    cases w with
    | zero =>
      simp at h
      subst h
      simp [busyItems]
    | succ w =>
      simp at h
      have hp := ih w h
      cases hd with
      | busy jt =>
        simp only [busyItems, List.set_cons_succ, List.filterMap_cons] at hp ⊢
        exact (hp.cons jt).trans (List.Perm.swap it jt _)
      | idle =>
        simpa [busyItems] using hp
      | done =>
        simpa [busyItems] using hp

end DocExtractor

namespace DocExtractor

theorem busyItems_nil_of_all_done (ws : List WStatus)
    (h : ∀ st ∈ ws, st = WStatus.done) : busyItems ws = [] := by
  induction ws with
  | nil => rfl
  | cons hd tl ih =>
    have hhd := h hd (by simp)
    subst hhd
    simp only [busyItems, List.filterMap_cons]
    exact ih fun st hst => h st (by simp [hst])

theorem busyItems_replicate_idle (n : Nat) :
    busyItems (List.replicate n WStatus.idle) = [] := by
  induction n with
  | zero => rfl
  | succ n ih => simp [busyItems, List.replicate_succ, List.filterMap_cons, ih]

theorem mem_busyItems_of_getElem {ws : List WStatus} {w : Nat} {it : WorkItem}
    (h : ws[w]? = some (WStatus.busy it)) : it ∈ busyItems ws :=
  List.mem_filterMap.mpr ⟨WStatus.busy it, List.getElem?_mem h, rfl⟩

theorem match_eq_filter (attempt : Nat → Except String Rec) (it : WorkItem) :
    (match attempt it.index with
      | Except.ok _ => ([] : List WorkItem)
      | Except.error _ => [it])
      = List.filter (fun jt => failsAt attempt jt.index) [it] := by
  rcases hA : attempt it.index with e | r <;>
    simp [List.filter_singleton, failsAt, hA]

theorem index_lt_of_mem_orig {files : List JSFile} {it : WorkItem}
    (h : it ∈ origItems files) : it.index < files.length := by
  have hg := mem_origItems.mp h
  by_contra hc
  rw [List.getElem?_eq_none_iff.mpr (Nat.le_of_not_lt hc)] at hg
  cases hg

theorem runInv_init (files : List JSFile) (headers : List String)
    (attempt : Nat → Except String Rec) :
    RunInv files headers attempt (initState files) := by
  refine ⟨by simp [initState], by simp [initState], ?_, ?_, rfl, ?_⟩
  · simp [initState, busyItems_replicate_idle]
  · intro it hit
    simp [initState] at hit
  · intro _ hdone
    simp only [initState] at hdone
    rw [List.mem_replicate] at hdone
    cases hdone.2

theorem runInv_nodup {files : List JSFile} {headers : List String}
    {attempt : Nat → Except String Rec} {s : RunState}
    (h : RunInv files headers attempt s) :
    ((s.fileQueue ++ busyItems s.workers ++ s.completed).map WorkItem.index).Nodup := by
  refine ((h.perm.map WorkItem.index).nodup_iff).mpr ?_
  rw [origItems_map_index]
  exact List.nodup_range files.length

theorem busy_completed_index_ne {files : List JSFile} {headers : List String}
    {attempt : Nat → Except String Rec} {s : RunState}
    (h : RunInv files headers attempt s) {it jt : WorkItem}
    (hit : it ∈ busyItems s.workers) (hjt : jt ∈ s.completed) :
    it.index ≠ jt.index := by
  have hnd := runInv_nodup h
  simp only [List.map_append, List.nodup_append, List.disjoint_append_left] at hnd
  intro he
  exact hnd.2.2.2 (List.mem_map_of_mem WorkItem.index hit)
    (he ▸ List.mem_map_of_mem WorkItem.index hjt)

theorem runInv_mem_orig {files : List JSFile} {headers : List String}
    {attempt : Nat → Except String Rec} {s : RunState}
    (h : RunInv files headers attempt s) {it : WorkItem}
    (hit : it ∈ s.fileQueue ++ busyItems s.workers ++ s.completed) :
    it ∈ origItems files :=
  h.perm.subset hit

theorem runInv_step {files : List JSFile} {headers : List String}
    {attempt : Nat → Except String Rec} {s s' : RunState}
    (hinv : RunInv files headers attempt s)
    (hstep : Step headers attempt s s') : RunInv files headers attempt s' := by
  cases hstep with
  | start w it rest hw hq =>
    refine ⟨by rw [List.length_set]; exact hinv.wlen, hinv.rlen, ?_, hinv.slots,
      hinv.failedEq, ?_⟩
    · have hb := busyItems_set_busy s.workers w it hw
      have hpm := hinv.perm
      rw [hq] at hpm
      rw [← Multiset.coe_eq_coe] at *
      simp only [← Multiset.coe_add, ← Multiset.cons_coe, ← Multiset.singleton_add,
        Multiset.coe_nil] at *
      rw [hb, ← hpm]
      abel
    · intro hne hdone
      rcases List.mem_or_eq_of_mem_set hdone with hmem | habs
      · exact hinv.doneQ (by rw [hq]; simp) hmem
      · cases habs
  | finish w it hw =>
    have hitb : it ∈ busyItems s.workers := mem_busyItems_of_getElem hw
    have hito : it ∈ origItems files :=
      runInv_mem_orig hinv (by simp [hitb])
    have hilt : it.index < s.results.length := by
      rw [hinv.rlen]
      exact index_lt_of_mem_orig hito
    refine ⟨by rw [List.length_set]; exact hinv.wlen,
      by rw [List.length_set]; exact hinv.rlen, ?_, ?_, ?_, ?_⟩
    · have hb := busyItems_set_unbusy s.workers w it hw
      have hpm := hinv.perm
      rw [← Multiset.coe_eq_coe] at *
      simp only [← Multiset.coe_add, ← Multiset.cons_coe, ← Multiset.singleton_add,
        Multiset.coe_nil] at *
      rw [hb] at hpm
      rw [← hpm]
      abel
    · intro jt hjt
      rcases List.mem_append.mp hjt with hjc | hjj
      · have hne : it.index ≠ jt.index := busy_completed_index_ne hinv hitb hjc
        rw [List.getElem?_set_ne hne]
        exact hinv.slots jt hjc
      · have hji : jt = it := by simpa using hjj
        subst hji
        rw [List.getElem?_set_self hilt]
    · rw [hinv.failedEq, match_eq_filter attempt it, ← List.filter_append]
    · intro hne hdone
      rcases List.mem_or_eq_of_mem_set hdone with hmem | habs
      · exact hinv.doneQ hne hmem
      · cases habs
  | exit w hw hq =>
    refine ⟨by rw [List.length_set]; exact hinv.wlen, hinv.rlen, ?_, hinv.slots,
      hinv.failedEq, ?_⟩
    · rw [busyItems_set_done s.workers w hw]
      exact hinv.perm
    · intro hne
      exact absurd hq hne

theorem runInv_reachable {files : List JSFile} {headers : List String}
    {attempt : Nat → Except String Rec} {s : RunState}
    (h : RunReachable files headers attempt s) :
    RunInv files headers attempt s := by
  unfold RunReachable at h
  induction h with
  | refl => exact runInv_init files headers attempt
  | tail _ hstep ih => exact runInv_step ih hstep

end DocExtractor

namespace DocExtractor

theorem runFinal_busy_nil {s : RunState} (hf : FinalState s) :
    busyItems s.workers = [] :=
  busyItems_nil_of_all_done s.workers hf.2

theorem runFinal_completed_perm {files : List JSFile} {headers : List String}
    {attempt : Nat → Except String Rec} {s : RunState}
    (hinv : RunInv files headers attempt s) (hf : FinalState s) :
    s.completed.Perm (origItems files) := by
  have hp := hinv.perm
  rw [hf.1, runFinal_busy_nil hf] at hp
  simpa using hp

theorem runFinal_slot {files : List JSFile} {headers : List String}
    {attempt : Nat → Except String Rec} {s : RunState}
    (hr : RunReachable files headers attempt s) (hf : FinalState s)
    {i : Nat} {f : JSFile} (hif : files[i]? = some f) :
    s.results[i]? = some (some (attemptRow headers attempt { file := f, index := i })) := by
  have hinv := runInv_reachable hr
  have hmem : ({ file := f, index := i } : WorkItem) ∈ s.completed :=
    (runFinal_completed_perm hinv hf).mem_iff.mpr (mem_origItems.mpr hif)
  exact hinv.slots _ hmem

theorem runFinal_failed_iff {files : List JSFile} {headers : List String}
    {attempt : Nat → Except String Rec} {s : RunState}
    (hr : RunReachable files headers attempt s) (hf : FinalState s)
    {i : Nat} {f : JSFile} (hif : files[i]? = some f) :
    ({ file := f, index := i } : WorkItem) ∈ s.failedItems ↔ failsAt attempt i = true := by
  have hinv := runInv_reachable hr
  rw [hinv.failedEq, List.mem_filter]
  constructor
  · intro hp
    exact hp.2
  · intro hfa
    exact ⟨(runFinal_completed_perm hinv hf).mem_iff.mpr (mem_origItems.mpr hif), hfa⟩

theorem runInv_failed_sub {files : List JSFile} {headers : List String}
    {attempt : Nat → Except String Rec} {s : RunState}
    (hinv : RunInv files headers attempt s) {it : WorkItem}
    (h : it ∈ s.failedItems) : it ∈ origItems files ∧ failsAt attempt it.index = true := by
  rw [hinv.failedEq] at h
  rcases List.mem_filter.mp h with ⟨hc, hfa⟩
  exact ⟨runInv_mem_orig hinv (by simp [hc]), hfa⟩

theorem runInv_failed_index_nodup {files : List JSFile} {headers : List String}
    {attempt : Nat → Except String Rec} {s : RunState}
    (hinv : RunInv files headers attempt s) :
    (s.failedItems.map WorkItem.index).Nodup := by
  have hnd := runInv_nodup hinv
  simp only [List.map_append, List.nodup_append] at hnd
  have hcnd : (s.completed.map WorkItem.index).Nodup := hnd.2.1
  rw [hinv.failedEq]
  exact hcnd.sublist (List.Sublist.map WorkItem.index (List.filter_sublist s.completed))

theorem wWeight_lt_cases (st : WStatus) : wWeight st = 0 ∨ wWeight st = 1 ∨ wWeight st = 2 := by
  cases st <;> simp [wWeight]

theorem sum_map_set (f : WStatus → Nat) (ws : List WStatus) (w : Nat) (v st : WStatus)
    (h : ws[w]? = some st) :
    ((ws.set w v).map f).sum + f st = (ws.map f).sum + f v := by
  induction ws generalizing w with
  | nil => simp at h
  | cons hd tl ih =>
    cases w with
    | zero =>
      simp at h
      subst h
      simp [List.set]
      ring
    | succ w =>
      simp at h
      have hs := ih w h
      simp only [List.set, List.map_cons, List.sum_cons]
      omega

theorem run_progress {files : List JSFile} {headers : List String}
    {attempt : Nat → Except String Rec} {s : RunState}
    (hinv : RunInv files headers attempt s) (hnf : ¬ FinalState s) :
    ∃ s', Step headers attempt s s' ∧ runMeasure s' < runMeasure s := by
  rcases hq : s.fileQueue with _ | ⟨it, rest⟩
  · -- queue drained: some worker is still idle or busy and can step
    have hex : ∃ st ∈ s.workers, st ≠ WStatus.done := by
      by_contra hc
      push_neg at hc
      exact hnf ⟨hq, hc⟩
    obtain ⟨st, hmem, hne⟩ := hex
    obtain ⟨w, hw⟩ := List.getElem?_of_mem hmem
    cases st with
    | idle =>
      refine ⟨_, Step.exit s w hw hq, ?_⟩
      have hs := sum_map_set wWeight s.workers w WStatus.done WStatus.idle hw
      simp only [runMeasure, wWeight] at hs ⊢
      omega
    | busy jt =>
      refine ⟨_, Step.finish s w jt hw, ?_⟩
      have hs := sum_map_set wWeight s.workers w WStatus.idle (WStatus.busy jt) hw
      simp only [runMeasure, wWeight] at hs ⊢
      omega
    | done => exact absurd rfl hne
  · -- queue nonempty: no worker has exited, so worker 0 can start or finish
    have hnd : WStatus.done ∉ s.workers := hinv.doneQ (by rw [hq]; simp)
    have hlt : 0 < s.workers.length := by
      rw [hinv.wlen]
      norm_num [CONCURRENCY_LIMIT]
    have hw : s.workers[0]? = some s.workers[0] := List.getElem?_eq_getElem hlt
    rcases hst : s.workers[0] with _ | jt
    · -- idle: claim the queue head
      rw [hst] at hw
      refine ⟨_, Step.start s 0 it rest hw hq, ?_⟩
      have hs := sum_map_set wWeight s.workers 0 (WStatus.busy it) WStatus.idle hw
      simp only [runMeasure, wWeight] at hs ⊢
      rw [hq]
      simp only [List.length_cons]
      omega
    · -- busy: complete the claimed item
      rw [hst] at hw
      refine ⟨_, Step.finish s 0 jt hw, ?_⟩
      have hs := sum_map_set wWeight s.workers 0 WStatus.idle (WStatus.busy jt) hw
      simp only [runMeasure, wWeight] at hs ⊢
      omega
    · -- done: impossible while the queue is nonempty
      exact absurd (hst ▸ List.getElem_mem hlt) hnd

theorem run_terminates {files : List JSFile} {headers : List String}
    {attempt : Nat → Except String Rec} (s : RunState)
    (hinv : RunInv files headers attempt s) :
    ∃ t, Relation.ReflTransGen (Step headers attempt) s t ∧ FinalState t := by
  by_cases hf : FinalState s
  · exact ⟨s, Relation.ReflTransGen.refl, hf⟩
  · obtain ⟨s', hstep, hlt⟩ := run_progress hinv hf
    obtain ⟨t, hrt, hft⟩ := run_terminates s' (runInv_step hinv hstep)
    exact ⟨t, Relation.ReflTransGen.head hstep hrt, hft⟩
termination_by runMeasure s
decreasing_by exact hlt

end DocExtractor

namespace DocExtractor

theorem retryInv_init (fitems : List WorkItem) (prior : List Row)
    (headers : List String) (attempt : Nat → Except String Rec) :
    RetryInv fitems prior headers attempt (retryInit fitems prior) := by
  refine ⟨by simp [retryInit], rfl, ?_, ?_, ?_, rfl⟩
  · simp [retryInit, busyItems_replicate_idle]
  · intro i _
    rfl
  · intro it hit
    simp [retryInit] at hit

theorem retryInv_nodup {fitems : List WorkItem} {prior : List Row}
    {headers : List String} {attempt : Nat → Except String Rec} {t : RetryState}
    (hnd : (fitems.map WorkItem.index).Nodup)
    (h : RetryInv fitems prior headers attempt t) :
    ((t.fileQueue ++ busyItems t.workers ++ t.completed).map WorkItem.index).Nodup :=
  ((h.perm.map WorkItem.index).nodup_iff).mpr hnd

theorem retry_busy_completed_index_ne {fitems : List WorkItem} {prior : List Row}
    {headers : List String} {attempt : Nat → Except String Rec} {t : RetryState}
    (hnd : (fitems.map WorkItem.index).Nodup)
    (h : RetryInv fitems prior headers attempt t) {it jt : WorkItem}
    (hit : it ∈ busyItems t.workers) (hjt : jt ∈ t.completed) :
    it.index ≠ jt.index := by
  have hn := retryInv_nodup hnd h
  simp only [List.map_append, List.nodup_append, List.disjoint_append_left] at hn
  intro he
  exact hn.2.2.2 (List.mem_map_of_mem WorkItem.index hit)
    (he ▸ List.mem_map_of_mem WorkItem.index hjt)

theorem retryInv_step {fitems : List WorkItem} {prior : List Row}
    {headers : List String} {attempt : Nat → Except String Rec} {t t' : RetryState}
    (hnd : (fitems.map WorkItem.index).Nodup)
    (hbd : ∀ it ∈ fitems, it.index < prior.length)
    (hinv : RetryInv fitems prior headers attempt t)
    (hstep : RStep headers attempt t t') :
    RetryInv fitems prior headers attempt t' := by
  cases hstep with
  | start w it rest hw hq =>
    refine ⟨by rw [List.length_set]; exact hinv.wlen, hinv.rlen, ?_, hinv.frame,
      hinv.outcome, hinv.failedEq⟩
    have hb := busyItems_set_busy t.workers w it hw
    have hpm := hinv.perm
    rw [hq] at hpm
    rw [← Multiset.coe_eq_coe] at *
    simp only [← Multiset.coe_add, ← Multiset.cons_coe, ← Multiset.singleton_add,
      Multiset.coe_nil] at *
    rw [hb, ← hpm]
    abel
  | finish w it hw =>
    have hitb : it ∈ busyItems t.workers := mem_busyItems_of_getElem hw
    have hitf : it ∈ fitems := hinv.perm.subset (by simp [hitb])
    have hilt : it.index < t.results.length := by
      rw [hinv.rlen]
      exact hbd it hitf
    have hperm : ((t.fileQueue ++ busyItems (t.workers.set w WStatus.idle)
        ++ (t.completed ++ [it]))).Perm fitems := by
      have hb := busyItems_set_unbusy t.workers w it hw
      have hpm := hinv.perm
      rw [← Multiset.coe_eq_coe] at *
      simp only [← Multiset.coe_add, ← Multiset.cons_coe, ← Multiset.singleton_add,
        Multiset.coe_nil] at *
      rw [hb] at hpm
      rw [← hpm]
      abel
    have hbcne : ∀ jt ∈ t.completed, it.index ≠ jt.index := fun jt hjt =>
      retry_busy_completed_index_ne hnd hinv hitb hjt
    rcases hA : attempt it.index with e | p
    · -- the second attempt throws: the existing row is kept
      simp only [hA]
      refine ⟨by rw [List.length_set]; exact hinv.wlen, hinv.rlen, hperm, ?_, ?_, ?_⟩
      · intro i hcond
        exact hinv.frame i fun jt hjt => hcond jt (by simp [hjt])
      · intro jt hjt
        rcases List.mem_append.mp hjt with hjc | hjj
        · have ho := hinv.outcome jt hjc
          rcases hB : attempt jt.index with e2 | p2 <;> simp only [hB] at ho ⊢ <;>
            exact ho
        · have hji : jt = it := by simpa using hjj
          subst hji
          simp only [hA]
          exact hinv.frame jt.index fun kt hkt => (hbcne kt hkt).symm
      · rw [hinv.failedEq, List.filter_append, List.filter_singleton]
        simp [failsAt, hA]
    · -- the second attempt parses: the slot is overwritten
      simp only [hA]
      refine ⟨by rw [List.length_set]; exact hinv.wlen,
        by rw [List.length_set]; exact hinv.rlen, hperm, ?_, ?_, ?_⟩
      · intro i hcond
        have hne : it.index ≠ i := hcond it (by simp)
        rw [List.getElem?_set_ne hne]
        exact hinv.frame i fun jt hjt => hcond jt (by simp [hjt])
      · intro jt hjt
        rcases List.mem_append.mp hjt with hjc | hjj
        · have ho := hinv.outcome jt hjc
          have hne : it.index ≠ jt.index := hbcne jt hjc
          rcases hB : attempt jt.index with e2 | p2 <;> simp only [hB] at ho ⊢ <;>
            rw [List.getElem?_set_ne hne] <;> exact ho
        · have hji : jt = it := by simpa using hjj
          subst hji
          simp only [hA]
          rw [List.getElem?_set_self hilt]
      · rw [hinv.failedEq, List.filter_append, List.filter_singleton]
        simp [failsAt, hA]
  | exit w hw hq =>
    refine ⟨by rw [List.length_set]; exact hinv.wlen, hinv.rlen, ?_, hinv.frame,
      hinv.outcome, hinv.failedEq⟩
    rw [busyItems_set_done t.workers w hw]
    exact hinv.perm

theorem retryInv_reachable {fitems : List WorkItem} {prior : List Row}
    {headers : List String} {attempt : Nat → Except String Rec} {t : RetryState}
    (hnd : (fitems.map WorkItem.index).Nodup)
    (hbd : ∀ it ∈ fitems, it.index < prior.length)
    (hr : RetryReachable fitems prior headers attempt t) :
    RetryInv fitems prior headers attempt t := by
  unfold RetryReachable at hr
  induction hr with
  | refl => exact retryInv_init fitems prior headers attempt
  | tail _ hstep ih => exact retryInv_step hnd hbd ih hstep

theorem retryFinal_completed_perm {fitems : List WorkItem} {prior : List Row}
    {headers : List String} {attempt : Nat → Except String Rec} {t : RetryState}
    (hinv : RetryInv fitems prior headers attempt t) (hf : RetryFinalState t) :
    t.completed.Perm fitems := by
  have hp := hinv.perm
  rw [hf.1, busyItems_nil_of_all_done t.workers hf.2] at hp
  simpa using hp

theorem retryFinal_frame {fitems : List WorkItem} {prior : List Row}
    {headers : List String} {attempt : Nat → Except String Rec} {t : RetryState}
    (hnd : (fitems.map WorkItem.index).Nodup)
    (hbd : ∀ it ∈ fitems, it.index < prior.length)
    (hr : RetryReachable fitems prior headers attempt t) (hf : RetryFinalState t) :
    ∀ i, i ∉ fitems.map WorkItem.index → t.results[i]? = prior[i]? := by
  have hinv := retryInv_reachable hnd hbd hr
  intro i hi
  refine hinv.frame i ?_
  intro jt hjt he
  have hjf : jt ∈ fitems := ((retryFinal_completed_perm hinv hf).subset hjt)
  exact hi (he ▸ List.mem_map_of_mem WorkItem.index hjf)

theorem retryFinal_outcome {fitems : List WorkItem} {prior : List Row}
    {headers : List String} {attempt : Nat → Except String Rec} {t : RetryState}
    (hnd : (fitems.map WorkItem.index).Nodup)
    (hbd : ∀ it ∈ fitems, it.index < prior.length)
    (hr : RetryReachable fitems prior headers attempt t) (hf : RetryFinalState t) :
    ∀ it ∈ fitems,
      match attempt it.index with
      | Except.ok parsedResult => t.results[it.index]? = some (successRow headers it parsedResult)
      | Except.error _ => t.results[it.index]? = prior[it.index]? := by
  have hinv := retryInv_reachable hnd hbd hr
  intro it hit
  exact hinv.outcome it ((retryFinal_completed_perm hinv hf).mem_iff.mpr hit)

theorem retryFinal_failed_iff {fitems : List WorkItem} {prior : List Row}
    {headers : List String} {attempt : Nat → Except String Rec} {t : RetryState}
    (hnd : (fitems.map WorkItem.index).Nodup)
    (hbd : ∀ it ∈ fitems, it.index < prior.length)
    (hr : RetryReachable fitems prior headers attempt t) (hf : RetryFinalState t)
    (it : WorkItem) :
    it ∈ t.failedItems ↔ it ∈ fitems ∧ failsAt attempt it.index = true := by
  have hinv := retryInv_reachable hnd hbd hr
  rw [hinv.failedEq, List.mem_filter,
    (retryFinal_completed_perm hinv hf).mem_iff]

theorem retryInv_completed_sub {fitems : List WorkItem} {prior : List Row}
    {headers : List String} {attempt : Nat → Except String Rec} {t : RetryState}
    (hinv : RetryInv fitems prior headers attempt t) :
    ∀ it ∈ t.completed, it ∈ fitems := fun it h =>
  hinv.perm.subset (by simp [h])

end DocExtractor

namespace DocExtractor

theorem finalData_length (headers : List String) (slots : List (Option Rec)) :
    (finalData headers slots).length = slots.length := by
  simp [finalData]

theorem finalData_getElem (headers : List String) (slots : List (Option Rec))
    (k : Nat) :
    (finalData headers slots)[k]? =
      (slots[k]?).map fun o => buildFinalRow headers k (o.getD []) := by
  unfold finalData
  rw [List.getElem?_map, List.getElem?_enum]
  cases slots[k]? <;> rfl

theorem metaRows_length (headers : List String) (files : List JSFile) :
    (metaRows headers files).length = files.length := by
  simp [metaRows]

theorem metaRows_getElem (headers : List String) (files : List JSFile) (k : Nat) :
    (metaRows headers files)[k]? =
      (files[k]?).map fun f =>
        ((if "S.No" ∈ headers then [("S.No", Value.vNum (k + 1))] else [])
          ++ (if "Document Name" ∈ headers then [("Document Name", Value.vStr f.name)] else [])) := by
  unfold metaRows
  rw [List.getElem?_map, List.getElem?_enum]
  cases files[k]? <;> rfl

theorem lookup_buildFinalRow (headers : List String) (index : Nat) (row : Rec)
    (k : String) (h : k ∈ headers) :
    List.lookup k (buildFinalRow headers index row) =
      some (if k = "S.No" then Value.vNum (index + 1) else coalesceNA row k) := by
  induction headers with
  | nil => cases h
  | cons hd tl ih =>
    simp only [buildFinalRow, List.map_cons]
    by_cases hhd : hd = k
    · subst hhd
      by_cases hsn : hd = "S.No"
      · subst hsn
        simp [List.lookup]
      · rw [if_neg hsn, if_neg hsn]
        simp [List.lookup]
    · have hne : (k == hd) = false := beq_eq_false_iff_ne.mpr fun he => hhd he.symm
      have ht : k ∈ tl := by
        rcases List.mem_cons.mp h with he | ht
        · exact absurd he.symm hhd
        · exact ht
      by_cases hsn : hd = "S.No"
      · rw [if_pos hsn]
        simp only [List.lookup, hne]
        exact ih ht
      · rw [if_neg hsn]
        simp only [List.lookup, hne]
        exact ih ht

theorem lookup_errorRow_docname (headers : List String) (file : JSFile)
    (h : "Document Name" ∈ headers) :
    List.lookup "Document Name" (errorRow headers file) = some (Value.vStr file.name) := by
  induction headers with
  | nil => cases h
  | cons hd tl ih =>
    simp only [errorRow, List.filterMap_cons]
    by_cases hdn : hd = "Document Name"
    · subst hdn
      simp [List.lookup]
    · have ht : "Document Name" ∈ tl := by
        rcases List.mem_cons.mp h with he | ht
        · exact absurd he.symm hdn
        · exact ht
      have hne : ("Document Name" == hd) = false :=
        beq_eq_false_iff_ne.mpr fun he => hdn he.symm
      rw [if_neg hdn]
      by_cases hsn : hd = "S.No"
      · rw [if_pos hsn]
        exact ih ht
      · rw [if_neg hsn]
        simp only [List.lookup, hne]
        exact ih ht

theorem coalesce_attemptRow_docname (headers : List String)
    (attempt : Nat → Except String Rec) (it : WorkItem)
    (h : "Document Name" ∈ headers) :
    coalesceNA (attemptRow headers attempt it) "Document Name" = Value.vStr it.file.name := by
  unfold attemptRow
  rcases attempt it.index with e | p <;> dsimp only
  · rw [coalesceNA, lookup_errorRow_docname headers it.file h]
  · rw [if_pos h]
    rfl

theorem liveAux (headers : List String) (slots : List (Option Rec)) (n : Nat) :
    ((slots.enumFrom n).map fun p => p.2.map (mkLiveRow headers p.1)).filterMap id
      = (writtenSlots slots).map fun p => mkLiveRow headers (p.1 + n) p.2 := by
  induction slots generalizing n with
  | nil => rfl
  | cons hd tl ih =>
    cases hd with
    | none =>
      simp only [List.enumFrom_cons, List.map_cons, Option.map_none', List.filterMap_cons,
        id_eq]
      rw [ih (n + 1)]
      simp only [writtenSlots, List.map_map]
      apply List.map_congr_left
      intro p _
      simp only [Function.comp_apply]
      congr 1
      omega
    | some r =>
      simp only [List.enumFrom_cons, List.map_cons, Option.map_some', List.filterMap_cons,
        id_eq]
      rw [ih (n + 1)]
      simp only [writtenSlots, List.map_map, List.map_cons, Nat.zero_add]
      congr 1
      apply List.map_congr_left
      intro p _
      simp only [Function.comp_apply]
      congr 1
      omega

theorem liveTableData_eq_writtenSlots (headers : List String) (slots : List (Option Rec)) :
    liveTableData headers slots = (writtenSlots slots).map fun p => mkLiveRow headers p.1 p.2 := by
  unfold liveTableData
  rw [List.enum_eq_enumFrom, liveAux]
  apply List.map_congr_left
  intro p _
  congr 1

theorem lookup_mkLiveRow_sno (headers : List String) (idx : Nat) (row : Rec) :
    List.lookup "S.No" (mkLiveRow headers idx row) = some (some (Value.vNum (idx + 1))) := by
  simp [mkLiveRow, List.lookup]

end DocExtractor

namespace DocExtractor

theorem demoRun_reachable :
    RunReachable demoFiles demoHeaders demoAttempt1 demoRunFinal := by
  unfold RunReachable
  refine Relation.ReflTransGen.head
    (Step.start _ 0 demoItem0 [demoItem1] (by decide) (by decide)) ?_
  refine Relation.ReflTransGen.head (Step.finish _ 0 demoItem0 (by decide)) ?_
  refine Relation.ReflTransGen.head
    (Step.start _ 0 demoItem1 [] (by decide) (by decide)) ?_
  refine Relation.ReflTransGen.head (Step.finish _ 0 demoItem1 (by decide)) ?_
  refine Relation.ReflTransGen.head (Step.exit _ 0 (by decide) (by decide)) ?_
  refine Relation.ReflTransGen.head (Step.exit _ 1 (by decide) (by decide)) ?_
  refine Relation.ReflTransGen.head (Step.exit _ 2 (by decide) (by decide)) ?_
  refine Relation.ReflTransGen.head (Step.exit _ 3 (by decide) (by decide)) ?_
  refine Relation.ReflTransGen.head (Step.exit _ 4 (by decide) (by decide)) ?_
  exact Relation.ReflTransGen.refl

theorem demoRun_final : FinalState demoRunFinal := by decide

theorem demoRetry_reachable :
    RetryReachable demoRunFinal.failedItems (finalData demoHeaders demoRunFinal.results)
      demoHeaders demoAttempt2 demoRetryFinal := by
  unfold RetryReachable
  refine Relation.ReflTransGen.head
    (RStep.start _ 0 demoItem0 [] (by decide) (by decide)) ?_
  refine Relation.ReflTransGen.head (RStep.finish _ 0 demoItem0 (by decide)) ?_
  refine Relation.ReflTransGen.head (RStep.exit _ 0 (by decide) (by decide)) ?_
  refine Relation.ReflTransGen.head (RStep.exit _ 1 (by decide) (by decide)) ?_
  refine Relation.ReflTransGen.head (RStep.exit _ 2 (by decide) (by decide)) ?_
  refine Relation.ReflTransGen.head (RStep.exit _ 3 (by decide) (by decide)) ?_
  refine Relation.ReflTransGen.head (RStep.exit _ 4 (by decide) (by decide)) ?_
  exact Relation.ReflTransGen.refl

theorem demoRetry_final : RetryFinalState demoRetryFinal := by decide

end DocExtractor

namespace DocExtractor

theorem failsAt_iff {attempt : Nat → Except String Rec} {i : Nat} :
    failsAt attempt i = true ↔ ∃ e, attempt i = Except.error e := by
  unfold failsAt
  rcases hA : attempt i with e | p <;> simp

theorem attemptRow_eq_errorRow {headers : List String}
    {attempt : Nat → Except String Rec} {it : WorkItem} {e : String}
    (hA : attempt it.index = Except.error e) :
    attemptRow headers attempt it = errorRow headers it.file := by
  unfold attemptRow
  rw [hA]

theorem metaRows_rows_spec (headers : List String) (files : List JSFile) :
    (metaRows headers files).length = files.length ∧
    ∀ k f, files[k]? = some f → ∃ r, (metaRows headers files)[k]? = some r ∧
      ("S.No" ∈ headers → List.lookup "S.No" r = some (Value.vNum (k + 1))) ∧
      ("Document Name" ∈ headers → List.lookup "Document Name" r = some (Value.vStr f.name)) := by
  refine ⟨metaRows_length headers files, ?_⟩
  intro k f hkf
  refine ⟨(if "S.No" ∈ headers then [("S.No", Value.vNum (k + 1))] else [])
      ++ (if "Document Name" ∈ headers then [("Document Name", Value.vStr f.name)] else []),
    by rw [metaRows_getElem, hkf]; rfl, ?_, ?_⟩
  · intro hS
    rw [if_pos hS]
    simp [List.lookup]
  · intro hD
    rw [if_pos hD]
    by_cases hS : "S.No" ∈ headers
    · rw [if_pos hS]
      simp [List.lookup]
    · rw [if_neg hS]
      simp [List.lookup]

theorem poolRows_spec {files : List JSFile} {headers : List String}
    {attempt : Nat → Except String Rec} {s : RunState}
    (hr : RunReachable files headers attempt s) (hf : FinalState s) :
    (finalData headers s.results).length = files.length ∧
    ∀ k f, files[k]? = some f → ∃ r, (finalData headers s.results)[k]? = some r ∧
      ("S.No" ∈ headers → List.lookup "S.No" r = some (Value.vNum (k + 1))) ∧
      ("Document Name" ∈ headers → List.lookup "Document Name" r = some (Value.vStr f.name)) := by
  have hinv := runInv_reachable hr
  refine ⟨by rw [finalData_length, hinv.rlen], ?_⟩
  intro k f hkf
  have hslot := runFinal_slot hr hf hkf
  refine ⟨buildFinalRow headers k (attemptRow headers attempt { file := f, index := k }),
    by rw [finalData_getElem, hslot]; rfl, ?_, ?_⟩
  · intro hS
    rw [lookup_buildFinalRow headers k _ "S.No" hS, if_pos rfl]
  · intro hD
    rw [lookup_buildFinalRow headers k _ "Document Name" hD,
      if_neg (by decide : ¬ ("Document Name" = "S.No")),
      coalesce_attemptRow_docname headers attempt { file := f, index := k } hD]

/-- C2: after any run that drains the whole queue, under any worker
interleaving, the returned row sequence has exactly one row per input
file, the row at position k is built from input file k (Document Name
equals that file's name when selected), and S.No at position k is k+1
when selected, independent of which extractions succeeded. -/
theorem run_rows_index_stable
    (files : List JSFile) (headers : List String)
    (attempt : Nat → Except String Rec)
    (rows : List Row) (failed : List WorkItem) (calls : List Nat)
    (h : RunResult files headers attempt rows failed calls) :
    rows.length = files.length ∧
    ∀ k f, files[k]? = some f → ∃ r, rows[k]? = some r ∧
      ("S.No" ∈ headers → List.lookup "S.No" r = some (Value.vNum (k + 1))) ∧
      ("Document Name" ∈ headers → List.lookup "Document Name" r = some (Value.vStr f.name)) := by
  cases h with
  | metadataOnly hc => exact metaRows_rows_spec headers files
  | pool s hc hr hf => exact poolRows_spec hr hf

/-- C2 witness: the demo run over two files (one failing) satisfies the
statement at index 1. -/
theorem run_rows_index_stable_witness :
    (finalData demoHeaders demoRunFinal.results).length = 2 ∧
    ∃ r, (finalData demoHeaders demoRunFinal.results)[1]? = some r ∧
      List.lookup "S.No" r = some (Value.vNum 2) ∧
      List.lookup "Document Name" r = some (Value.vStr "b.pdf") := by
  obtain ⟨h1, h2⟩ := run_rows_index_stable demoFiles demoHeaders demoAttempt1
    (finalData demoHeaders demoRunFinal.results) demoRunFinal.failedItems
    (demoRunFinal.completed.map WorkItem.index)
    (RunResult.pool demoRunFinal (by decide) demoRun_reachable demoRun_final)
  obtain ⟨r, hr1, hr2, hr3⟩ := h2 1 demoFileB (by decide)
  exact ⟨h1, r, hr1, hr2 (by decide), hr3 (by decide)⟩

/-- C5: with a non-empty schema whose content-header subset is empty, the
run takes the metadata-only short-circuit: zero extraction calls are
issued, no item can fail, and every row is synthesized from position and
filename alone. -/
theorem run_metadata_only_short_circuit
    (files : List JSFile) (headers : List String)
    (attempt : Nat → Except String Rec)
    (rows : List Row) (failed : List WorkItem) (calls : List Nat)
    (_hne : headers ≠ []) (hc : contentHeaders headers = [])
    (h : RunResult files headers attempt rows failed calls) :
    rows = metaRows headers files ∧ calls = [] ∧ failed = [] ∧
    rows.length = files.length ∧
    ∀ k f, files[k]? = some f → ∃ r, rows[k]? = some r ∧
      ("S.No" ∈ headers → List.lookup "S.No" r = some (Value.vNum (k + 1))) ∧
      ("Document Name" ∈ headers → List.lookup "Document Name" r = some (Value.vStr f.name)) := by
  cases h with
  | metadataOnly _ =>
    have hm := metaRows_rows_spec headers files
    exact ⟨rfl, rfl, rfl, hm.1, hm.2⟩
  | pool s hcne hr hf => exact absurd hc hcne

/-- C5 witness: a schema holding only the two metadata headers
short-circuits on the demo files. -/
theorem run_metadata_only_short_circuit_witness :
    metaRows ["S.No", "Document Name"] demoFiles
        = metaRows ["S.No", "Document Name"] demoFiles ∧
    ([] : List Nat) = [] ∧ ([] : List WorkItem) = [] ∧
    (metaRows ["S.No", "Document Name"] demoFiles).length = 2 ∧
    ∃ r, (metaRows ["S.No", "Document Name"] demoFiles)[0]? = some r ∧
      List.lookup "S.No" r = some (Value.vNum 1) ∧
      List.lookup "Document Name" r = some (Value.vStr "a.pdf") := by
  obtain ⟨h1, h2, h3, h4, h5⟩ := run_metadata_only_short_circuit demoFiles
    ["S.No", "Document Name"] demoAttempt1
    (metaRows ["S.No", "Document Name"] demoFiles) [] []
    (by decide) (by decide) (RunResult.metadataOnly (by decide))
  obtain ⟨r, hr1, hr2, hr3⟩ := h5 0 demoFileA (by decide)
  exact ⟨h1, h2, h3, h4, r, hr1, hr2 (by decide), hr3 (by decide)⟩

/-- C4: with at least one content header, per-item extraction failures
are contained: the run still returns one row per file, a throwing item's
row is the failure-marker row and the item is recorded in failedItems
(and only throwing items are), and from every reachable pool state the
run can always drain to completion (the machine has no aborting
transition, so per-item errors never propagate out of the run). -/
theorem run_error_containment
    (files : List JSFile) (headers : List String)
    (attempt : Nat → Except String Rec)
    (rows : List Row) (failed : List WorkItem) (calls : List Nat)
    (hc : contentHeaders headers ≠ [])
    (h : RunResult files headers attempt rows failed calls) :
    (rows.length = files.length ∧
     ∀ i f, files[i]? = some f →
       (failsAt attempt i = true →
         rows[i]? = some (buildFinalRow headers i (errorRow headers f))) ∧
       (({ file := f, index := i } : WorkItem) ∈ failed ↔ failsAt attempt i = true)) ∧
    (∀ s, RunReachable files headers attempt s →
      ∃ t, Relation.ReflTransGen (Step headers attempt) s t ∧ FinalState t) := by
  constructor
  · cases h with
    | metadataOnly hcz => exact absurd hcz hc
    | pool s hcne hr hf =>
      have hinv := runInv_reachable hr
      refine ⟨by rw [finalData_length, hinv.rlen], ?_⟩
      intro i f hif
      constructor
      · intro hfa
        obtain ⟨e, he⟩ := failsAt_iff.mp hfa
        have hslot := runFinal_slot hr hf hif
        rw [finalData_getElem, hslot]
        have hrow :
            attemptRow headers attempt { file := f, index := i } = errorRow headers f :=
          attemptRow_eq_errorRow he
        rw [Option.map_some']
        simp only [Option.getD_some]
        rw [hrow]
      · exact runFinal_failed_iff hr hf hif
  · intro s hr
    exact run_terminates s (runInv_reachable hr)

/-- C4 witness: in the demo run the throwing file at index 0 yields the
failure-marker row and is the only recorded failed item. -/
theorem run_error_containment_witness :
    (finalData demoHeaders demoRunFinal.results).length = 2 ∧
    (finalData demoHeaders demoRunFinal.results)[0]?
      = some (buildFinalRow demoHeaders 0 (errorRow demoHeaders demoFileA)) ∧
    demoItem0 ∈ demoRunFinal.failedItems := by
  obtain ⟨⟨h1, h2⟩, _⟩ := run_error_containment demoFiles demoHeaders demoAttempt1
    (finalData demoHeaders demoRunFinal.results) demoRunFinal.failedItems
    (demoRunFinal.completed.map WorkItem.index)
    (by decide) (RunResult.pool demoRunFinal (by decide) demoRun_reachable demoRun_final)
  obtain ⟨hrow, hmem⟩ := h2 0 demoFileA (by decide)
  exact ⟨h1, hrow (by decide), hmem.mpr (by decide)⟩

theorem two_busy_ne {ws : List WStatus} (hnd : (busyItems ws).Nodup)
    {w1 w2 : Nat} {it1 it2 : WorkItem} (hw : w1 ≠ w2)
    (h1 : ws[w1]? = some (WStatus.busy it1)) (h2 : ws[w2]? = some (WStatus.busy it2)) :
    it1 ≠ it2 := by
  induction ws generalizing w1 w2 with
  | nil => simp at h1
  | cons hd tl ih =>
    cases w1 with
    | zero =>
      simp at h1
      subst h1
      cases w2 with
      | zero => exact absurd rfl hw
      | succ w2 =>
        simp at h2
        simp only [busyItems, List.filterMap_cons] at hnd
        have hmem : it2 ∈ busyItems tl := mem_busyItems_of_getElem h2
        intro he
        subst he
        exact (List.nodup_cons.mp hnd).1 hmem
    | succ w1 =>
      simp at h1
      cases w2 with
      | zero =>
        simp at h2
        subst h2
        simp only [busyItems, List.filterMap_cons] at hnd
        have hmem : it1 ∈ busyItems tl := mem_busyItems_of_getElem h1
        intro he
        subst he
        exact (List.nodup_cons.mp hnd).1 hmem
      | succ w2 =>
        simp at h2
        have hw' : w1 ≠ w2 := fun he => hw (by rw [he])
        cases hd with
        | busy jt =>
          simp only [busyItems, List.filterMap_cons] at hnd
          exact ih (List.nodup_cons.mp hnd).2 hw' h1 h2
        | idle =>
          simp only [busyItems, List.filterMap_cons] at hnd
          exact ih hnd hw' h1 h2
        | done =>
          simp only [busyItems, List.filterMap_cons] at hnd
          exact ih hnd hw' h1 h2

theorem runInv_busy_nodup {files : List JSFile} {headers : List String}
    {attempt : Nat → Except String Rec} {s : RunState}
    (hinv : RunInv files headers attempt s) : (busyItems s.workers).Nodup := by
  have hnd := runInv_nodup hinv
  simp only [List.map_append, List.nodup_append] at hnd
  exact hnd.1.2.1.of_map

/-- C9: in every reachable state of a run, at most CONCURRENCY_LIMIT (=5)
extraction calls are outstanding (one per busy worker), no work item is
ever held by two workers at once, and each original index occurs exactly
once across the pending queue, the claimed items and the completed trace,
so an item can never be claimed a second time. -/
theorem run_concurrency_bound
    (files : List JSFile) (headers : List String)
    (attempt : Nat → Except String Rec) (s : RunState)
    (hr : RunReachable files headers attempt s) :
    (busyItems s.workers).length ≤ CONCURRENCY_LIMIT ∧
    (∀ (w1 w2 : Nat) (it1 it2 : WorkItem), w1 ≠ w2 →
      s.workers[w1]? = some (WStatus.busy it1) →
      s.workers[w2]? = some (WStatus.busy it2) → it1 ≠ it2) ∧
    ((s.fileQueue ++ busyItems s.workers ++ s.completed).map WorkItem.index).Nodup := by
  have hinv := runInv_reachable hr
  refine ⟨?_, ?_, runInv_nodup hinv⟩
  · calc (busyItems s.workers).length ≤ s.workers.length :=
          List.length_filterMap_le _ _
      _ = CONCURRENCY_LIMIT := hinv.wlen
  · intro w1 w2 it1 it2 hw h1 h2
    exact two_busy_ne (runInv_busy_nodup hinv) hw h1 h2

/-- C9 witness: the bound holds in the initial state of the demo run. -/
theorem run_concurrency_bound_witness :
    (busyItems (initState demoFiles).workers).length ≤ CONCURRENCY_LIMIT := by
  have h := run_concurrency_bound demoFiles demoHeaders demoAttempt1
    (initState demoFiles) Relation.ReflTransGen.refl
  exact h.1

theorem run_failed_bounds {files : List JSFile} {headers : List String}
    {attempt : Nat → Except String Rec} {s : RunState}
    (hinv : RunInv files headers attempt s) :
    (s.failedItems.map WorkItem.index).Nodup ∧
    ∀ it ∈ s.failedItems, it.index < (finalData headers s.results).length := by
  refine ⟨runInv_failed_index_nodup hinv, ?_⟩
  intro it hit
  rw [finalData_length, hinv.rlen]
  exact index_lt_of_mem_orig (runInv_failed_sub hinv hit).1

/-- C1: after a completed run whose failure slots sit exactly at the
indices of its failedItems list, retrying those failedItems touches no
other slot (the rows at all other indices stay identical to the run's
rows) and every item the retry processes comes from the failedItems
list. -/
theorem retry_preserves_success_rows
    (files : List JSFile) (headers : List String)
    (attempt1 attempt2 : Nat → Except String Rec)
    (s : RunState) (t : RetryState)
    (hr : RunReachable files headers attempt1 s) (hf : FinalState s)
    (ht : RetryReachable s.failedItems (finalData headers s.results) headers attempt2 t)
    (htf : RetryFinalState t) :
    (∀ i f, files[i]? = some f →
      (({ file := f, index := i } : WorkItem) ∈ s.failedItems ↔ failsAt attempt1 i = true)) ∧
    (∀ i, i ∉ s.failedItems.map WorkItem.index →
      t.results[i]? = (finalData headers s.results)[i]?) ∧
    (∀ it ∈ t.completed, it ∈ s.failedItems) := by
  have hinv := runInv_reachable hr
  have hb := run_failed_bounds hinv
  refine ⟨?_, ?_, ?_⟩
  · intro i f hif
    exact runFinal_failed_iff hr hf hif
  · exact retryFinal_frame hb.1 hb.2 ht htf
  · exact retryInv_completed_sub (retryInv_reachable hb.1 hb.2 ht)

/-- C1 witness: in the demo, index 1 (a success of the first pass) is
untouched by the retry, and only the failed item 0 is processed. -/
theorem retry_preserves_success_rows_witness :
    demoRetryFinal.results[1]? = (finalData demoHeaders demoRunFinal.results)[1]? ∧
    demoItem0 ∈ demoRunFinal.failedItems := by
  have h := retry_preserves_success_rows demoFiles demoHeaders demoAttempt1 demoAttempt2
    demoRunFinal demoRetryFinal demoRun_reachable demoRun_final
    demoRetry_reachable demoRetry_final
  exact ⟨h.2.1 1 (by decide), h.2.2 demoItem0 (by decide)⟩

/-- C7: retry is idempotent per item: a retried item whose second attempt
parses has its slot overwritten with the success row (metadata recomputed,
missing content fields defaulting to N/A), while one that throws again
keeps a failure-marker row in its slot and appears in the failedItems
list the retry returns. -/
theorem retry_overwrites_failed_slots
    (files : List JSFile) (headers : List String)
    (attempt1 attempt2 : Nat → Except String Rec)
    (s : RunState) (t : RetryState)
    (hr : RunReachable files headers attempt1 s) (hf : FinalState s)
    (ht : RetryReachable s.failedItems (finalData headers s.results) headers attempt2 t)
    (htf : RetryFinalState t) :
    ∀ it ∈ s.failedItems,
      (∀ p, attempt2 it.index = Except.ok p →
        t.results[it.index]? = some (successRow headers it p)) ∧
      (∀ e, attempt2 it.index = Except.error e →
        t.results[it.index]? = some (buildFinalRow headers it.index (errorRow headers it.file)) ∧
        it ∈ t.failedItems) := by
  have hinv := runInv_reachable hr
  have hb := run_failed_bounds hinv
  intro it hit
  have ho := retryFinal_outcome hb.1 hb.2 ht htf it hit
  constructor
  · intro p hp
    simp only [hp] at ho
    exact ho
  · intro e hp
    simp only [hp] at ho
    have hsub := runInv_failed_sub hinv hit
    have hfile : files[it.index]? = some it.file := mem_origItems.mp hsub.1
    obtain ⟨e1, he1⟩ := failsAt_iff.mp hsub.2
    have hslot := runFinal_slot hr hf hfile
    constructor
    · rw [ho, finalData_getElem, hslot, Option.map_some']
      simp only [Option.getD_some]
      rw [attemptRow_eq_errorRow he1]
    · refine (retryFinal_failed_iff hb.1 hb.2 ht htf it).mpr ⟨hit, ?_⟩
      simp [failsAt, hp]

/-- C7 witness: the demo retry succeeds on the previously failed item 0
and overwrites its slot with the success row. -/
theorem retry_overwrites_failed_slots_witness :
    demoRetryFinal.results[0]?
      = some (successRow demoHeaders demoItem0 [("Amount", Value.vStr "7")]) := by
  have h := retry_overwrites_failed_slots demoFiles demoHeaders demoAttempt1 demoAttempt2
    demoRunFinal demoRetryFinal demoRun_reachable demoRun_final
    demoRetry_reachable demoRetry_final
  exact (h demoItem0 (by decide)).1 [("Amount", Value.vStr "7")] rfl

end DocExtractor

namespace DocExtractor

/-- C3 counterexample: with slot 0 unwritten and slot 1 written, the
emitted live sequence has one row whose S.No is 2 (originalIndex + 1),
not 1 as its 1-based emitted position would demand — the snapshot
numbering is not dense. -/
theorem live_sno_counterexample :
    (liveTableData demoHeaders [none, some [("Amount", Value.vStr "42")]]).length = 1 ∧
    List.lookup "S.No"
        ((liveTableData demoHeaders [none, some [("Amount", Value.vStr "42")]]).headD [])
      = some (some (Value.vNum 2)) ∧
    (2 : Nat) ≠ 0 + 1 :=
  ⟨by decide, by decide, by decide⟩

/-- C3 (amended): every live snapshot emits exactly the written slots, in
slot-index order, and each emitted row's S.No is originalIndex + 1 (so
unwritten earlier slots leave gaps in the S.No column rather than being
renumbered densely). -/
theorem liveTableData_amended (headers : List String) (slots : List (Option Rec)) :
    liveTableData headers slots
      = (writtenSlots slots).map (fun p => mkLiveRow headers p.1 p.2) ∧
    ∀ p ∈ writtenSlots slots,
      List.lookup "S.No" (mkLiveRow headers p.1 p.2) = some (some (Value.vNum (p.1 + 1))) :=
  ⟨liveTableData_eq_writtenSlots headers slots,
    fun p _ => lookup_mkLiveRow_sno headers p.1 p.2⟩

/-- C3 witness: the amended statement evaluated on a single written
slot. -/
theorem liveTableData_amended_witness :
    liveTableData demoHeaders [some [("Amount", Value.vStr "42")]]
      = (writtenSlots [some [("Amount", Value.vStr "42")]]).map
          (fun p => mkLiveRow demoHeaders p.1 p.2) ∧
    List.lookup "S.No" (mkLiveRow demoHeaders 0 [("Amount", Value.vStr "42")])
      = some (some (Value.vNum 1)) := by
  have h := liveTableData_amended demoHeaders [some [("Amount", Value.vStr "42")]]
  exact ⟨h.1, h.2 (0, [("Amount", Value.vStr "42")]) (by decide)⟩

/-- C8 counterexample: at 59500 ms — under 60 seconds — formatEta already
reports a minutes string (Math.round carries 59.5 s up to 60 s), not an
"about S second(s)" string as the claim requires for durations below 60
seconds. -/
theorem formatEta_claim_counterexample :
    (59500 : ℚ) < 60 * 1000 ∧ (1000 : ℚ) ≤ 59500 ∧
    formatEta 59500 = "about 1 minute" ∧
    "about 1 minute" ≠ "about 59 seconds" ∧
    "about 1 minute" ≠ "about 60 seconds" := by
  refine ⟨by norm_num, by norm_num, ?_, by decide, by decide⟩
  unfold formatEta
  rw [if_neg (by norm_num)]
  have h : jsRound (59500 / 1000) = 60 := by
    unfold jsRound
    norm_num [Int.floor_eq_iff]
  simp only [h]
  norm_num
  decide

/-- C8 (amended): for every non-negative duration, formatEta behaves as
the amended specification says: under 1 s it is "a few seconds";
otherwise, with T the half-up rounding of ms/1000, the minutes form
"about M minute(s)[ and S seconds]" (S appended exactly when S > 10) is
used exactly when T ≥ 60, and "about T second(s)" otherwise. -/
theorem formatEta_amended (ms : ℚ) (_hms : 0 ≤ ms) :
    formatEta ms = specFormatEta ms := by
  unfold formatEta specFormatEta
  by_cases h1 : ms < 1000
  · rw [if_pos h1, if_pos h1]
  · rw [if_neg h1, if_neg h1]
    push_neg at h1
    have ht1 : 1 ≤ jsRound (ms / 1000) := by
      unfold jsRound
      have hq : (1 : ℚ) ≤ ms / 1000 := by
        rw [le_div_iff₀ (by norm_num : (0 : ℚ) < 1000)]
        linarith
      have hq2 : (1 : ℚ) ≤ ms / 1000 + 1 / 2 := by linarith
      calc (1 : ℤ) = ⌊(1 : ℚ)⌋ := by norm_num
        _ ≤ ⌊ms / 1000 + 1 / 2⌋ := Int.floor_le_floor hq2
    have hminpos : jsRound (ms / 1000) / 60 > 0 ↔ jsRound (ms / 1000) ≥ 60 := by
      constructor
      · intro h
        by_contra hc
        push_neg at hc
        have hz := Int.ediv_eq_zero_of_lt (by omega) hc
        omega
      · intro h
        have hone : (1 : ℤ) ≤ jsRound (ms / 1000) / 60 :=
          (Int.le_ediv_iff_mul_le (by norm_num)).mpr (by omega)
        omega
    by_cases h60 : jsRound (ms / 1000) ≥ 60
    · rw [if_pos h60, if_pos (hminpos.mpr h60)]
    · rw [if_neg h60, if_neg fun hpos => h60 (hminpos.mp hpos)]
      have hmod : jsRound (ms / 1000) % 60 = jsRound (ms / 1000) :=
        Int.emod_eq_of_lt (by omega) (by omega)
      rw [hmod]

/-- C8 witness: the amended statement evaluated at 71000 ms. -/
theorem formatEta_amended_witness :
    (0 : ℚ) ≤ 71000 ∧ formatEta 71000 = specFormatEta 71000 :=
  ⟨by norm_num, formatEta_amended 71000 (by norm_num)⟩

theorem doubleQuotes_eq_flatMap (s : List Char) :
    doubleQuotes s = s.flatMap fun c => if c = '"' then ['"', '"'] else [c] := by
  induction s with
  | nil => rfl
  | cons c t ih =>
    by_cases hc : c = '"' <;>
      simp [doubleQuotes, hc, ih]

/-- C10: the CSV cell escaper maps null and undefined to the empty
string, returns any string free of commas, double quotes and newlines
unchanged, and wraps every other string form in double quotes with each
internal double quote doubled — nothing else is altered. -/
theorem escapeCsvCell_spec :
    (escapeCsvCell CellData.cNull = [] ∧ escapeCsvCell CellData.cUndefined = []) ∧
    (∀ s : List Char, (s.contains ',' || s.contains '"' || s.contains '\n') = false →
      escapeCsvCell (CellData.cStr s) = s) ∧
    (∀ s : List Char, (s.contains ',' || s.contains '"' || s.contains '\n') = true →
      escapeCsvCell (CellData.cStr s)
        = '"' :: (s.flatMap fun c => if c = '"' then ['"', '"'] else [c]) ++ ['"']) := by
  refine ⟨⟨rfl, rfl⟩, ?_, ?_⟩
  · intro s hs
    simp only [escapeCsvCell, cellString, hs]
    rw [if_neg Bool.false_ne_true]
  · intro s hs
    simp only [escapeCsvCell, cellString, hs]
    rw [if_pos trivial, doubleQuotes_eq_flatMap]

/-- C10 witness: the escaper evaluated on a clean string and on a string
holding a double quote. -/
theorem escapeCsvCell_spec_witness :
    ((['a', 'b'].contains ',' || ['a', 'b'].contains '"' || ['a', 'b'].contains '\n') = false
      ∧ escapeCsvCell (CellData.cStr ['a', 'b']) = ['a', 'b']) ∧
    ((['a', '"'].contains ',' || ['a', '"'].contains '"' || ['a', '"'].contains '\n') = true
      ∧ escapeCsvCell (CellData.cStr ['a', '"'])
          = '"' :: (['a', '"'].flatMap fun c => if c = '"' then ['"', '"'] else [c]) ++ ['"']) := by
  have h := escapeCsvCell_spec
  exact ⟨⟨by decide, h.2.1 ['a', 'b'] (by decide)⟩,
    ⟨by decide, h.2.2 ['a', '"'] (by decide)⟩⟩

end DocExtractor

namespace DocExtractor

/-- C6: each completion event increments the processed count by one; the
ETA machinery runs only when more than one second has elapsed and at
least two completions have occurred, in which case the raw estimate is
(total - newCount) * (elapsed / newCount), smoothed as rawEtaMs when the
previous smoothed value is null and as 0.4 * rawEtaMs + 0.6 * previous
otherwise, and the stored estimate is never negative; outside that guard
(first completion or under one second) the displayed ETA and smoothed
value are left untouched; and the state both run and retry reset to
holds count 0 and no ETA. -/
theorem progress_eta_spec
    (total : Nat) (t0 now : ℚ) (s : ProgressState)
    (hc : s.count + 1 ≤ total)
    (hnn : ∀ prev, s.smoothedEta = some prev → 0 ≤ prev)
    (hmono : t0 ≤ now) :
    (∀ st, (onCompleted total st now s).count = s.count + 1) ∧
    (¬ (now - t0 > 1000 ∧ s.count + 1 > 1) →
      onCompleted total (some t0) now s
        = { count := s.count + 1, smoothedEta := s.smoothedEta,
            etaDisplay := s.etaDisplay }) ∧
    ((now - t0 > 1000 ∧ s.count + 1 > 1) →
      ∃ eta, 0 ≤ eta ∧
        onCompleted total (some t0) now s
          = { count := s.count + 1, smoothedEta := some eta,
              etaDisplay := some (formatEta eta) } ∧
        (s.smoothedEta = none →
          eta = ((total : ℚ) - ((s.count + 1 : Nat) : ℚ))
            * ((now - t0) / ((s.count + 1 : Nat) : ℚ))) ∧
        (∀ prev, s.smoothedEta = some prev →
          eta = (0.4 : ℚ) * (((total : ℚ) - ((s.count + 1 : Nat) : ℚ))
              * ((now - t0) / ((s.count + 1 : Nat) : ℚ))) + (0.6 : ℚ) * prev)) ∧
    (progressStart.count = 0 ∧ progressStart.smoothedEta = none ∧
      progressStart.etaDisplay = none) := by
  have hraw : 0 ≤ ((total : ℚ) - ((s.count + 1 : Nat) : ℚ))
      * ((now - t0) / ((s.count + 1 : Nat) : ℚ)) := by
    apply mul_nonneg
    · rw [sub_nonneg]
      exact_mod_cast hc
    · apply div_nonneg
      · linarith
      · positivity
  refine ⟨?_, ?_, ?_, rfl, rfl, rfl⟩
  · intro st
    cases st with
    | none => rfl
    | some t0' =>
      simp only [onCompleted]
      split <;> rfl
  · intro hng
    simp only [onCompleted]
    rw [if_neg hng]
  · intro hg
    simp only [onCompleted]
    rw [if_pos hg]
    rcases hse : s.smoothedEta with _ | prev
    · exact ⟨((total : ℚ) - ((s.count + 1 : Nat) : ℚ))
          * ((now - t0) / ((s.count + 1 : Nat) : ℚ)),
        hraw, rfl, fun _ => rfl, fun prev hp => by cases hp⟩
    · refine ⟨(2 / 5 : ℚ) * (((total : ℚ) - ((s.count + 1 : Nat) : ℚ))
          * ((now - t0) / ((s.count + 1 : Nat) : ℚ))) + (1 - 2 / 5) * prev,
        ?_, rfl, ?_, ?_⟩
      · have hprev : 0 ≤ prev := hnn prev hse
        have h25 : (0 : ℚ) ≤ 2 / 5 := by norm_num
        have h35 : (0 : ℚ) ≤ 1 - 2 / 5 := by norm_num
        nlinarith
      · intro hn
        cases hn
      · intro prev2 hp
        cases hp
        norm_num

/-- C6 witness: a concrete completion event two seconds into a
three-file run with one prior completion. -/
theorem progress_eta_spec_witness :
    (onCompleted 3 (some 0) 2000
        { count := 1, smoothedEta := none, etaDisplay := none }).count = 2 := by
  have h := progress_eta_spec 3 0 2000
    { count := 1, smoothedEta := none, etaDisplay := none }
    (by norm_num) (by intro prev hp; cases hp) (by norm_num)
  exact h.1 (some 0)

end DocExtractor
